import Mathlib

/-!
# Verification of the generic binary min-heap (`structure/heap/heap.go`)

Shallow embedding of the Go heap container: the backing slice `h.heaps`
becomes a `List α`, the comparator `h.lessFunc` a function `α → α → Bool`,
and each method a Lean function.  Go's in-place mutation becomes explicit
state passing.  `Top`'s panic on an empty heap is modelled by `Option`
(`none` = panic); `NewAny`'s error return by `Except`.
-/

set_option maxHeartbeats 1000000

namespace HeapGo

variable {α : Type}

/-- Go slice read `h.heaps[i]`.  An out-of-range read panics in Go; we
totalize with `default`, and every lemma that depends on the value carries
an in-range hypothesis. -/
def get [Inhabited α] (l : List α) (i : Nat) : α := l.getD i default

/-- `swap` (heap.go 81-83): the parallel assignment
`h.heaps[i], h.heaps[j] = h.heaps[j], h.heaps[i]`; both right-hand sides
are read before either write. -/
def swapList [Inhabited α] (l : List α) (i j : Nat) : List α :=
  (l.set i (get l j)).set j (get l i)

/-- `up` (heap.go 86-99): bubble the element at `index` towards the root.
Go's `if index <= 0 { return }` is `index = 0` on `Nat`. -/
def up [Inhabited α] (less : α → α → Bool) (l : List α) (index : Nat) : List α :=
  if index = 0 then l
  else
    let parent := (index - 1) / 2
    if less (get l index) (get l parent) = true then
      up less (swapList l index parent) parent
    else l
termination_by index
decreasing_by omega

/-- The `smallest`-selection of `down` (heap.go 103-115): start with
`smallest := index`, compare the left child against `smallest`, then the
right child against the possibly-updated `smallest`. -/
def downSmallest [Inhabited α] (less : α → α → Bool) (l : List α) (index : Nat) : Nat :=
  let left := 2 * index + 1
  let right := 2 * index + 2
  let s1 := if left < l.length ∧ less (get l left) (get l index) = true then left else index
  let s2 := if right < l.length ∧ less (get l right) (get l s1) = true then right else s1
  s2

/-- `down` (heap.go 102-121): sink the element at `index`; swap with the
smallest child while one strictly precedes it. -/
def down [Inhabited α] (less : α → α → Bool) (l : List α) (index : Nat) : List α :=
  if _h : downSmallest less l index = index then l
  else down less (swapList l index (downSmallest less l index)) (downSmallest less l index)
termination_by l.length - index
decreasing_by
  simp only [swapList, List.length_set]
  simp only [downSmallest] at _h ⊢
  split_ifs at _h ⊢ <;> omega

/-- The heap container (heap.go 11-14): backing slice plus comparator. -/
structure Heap (α : Type) where
  heaps : List α
  lessFunc : α → α → Bool

/-- `NewAny` (heap.go 28-35): the Go `nil` comparator is modelled by
`Option`; `nil` yields the error and no heap. -/
def NewAny (less : Option (α → α → Bool)) : Except String (Heap α) :=
  match less with
  | none => Except.error "less function is required to define heap ordering"
  | some f => Except.ok { heaps := [], lessFunc := f }

/-- A freshly constructed heap (what `NewAny` returns on a valid
comparator): empty storage, fixed predicate. -/
def freshHeap (less : α → α → Bool) : Heap α := { heaps := [], lessFunc := less }

/-- Method `swap` on the container. -/
def Heap.swap [Inhabited α] (h : Heap α) (i j : Nat) : Heap α :=
  { h with heaps := swapList h.heaps i j }

/-- Method `up` on the container. -/
def Heap.up [Inhabited α] (h : Heap α) (index : Nat) : Heap α :=
  { h with heaps := HeapGo.up h.lessFunc h.heaps index }

/-- Method `down` on the container. -/
def Heap.down [Inhabited α] (h : Heap α) (index : Nat) : Heap α :=
  { h with heaps := HeapGo.down h.lessFunc h.heaps index }

/-- `Push` (heap.go 39-42): append, then sift up from the new last index. -/
def Heap.Push [Inhabited α] (h : Heap α) (element : α) : Heap α :=
  let h1 : Heap α := { h with heaps := h.heaps ++ [element] }
  h1.up (h1.heaps.length - 1)

/-- `Empty` (heap.go 71-73). -/
def Heap.Empty (h : Heap α) : Bool := h.heaps.length == 0

/-- `Size` (heap.go 76-78). -/
def Heap.Size (h : Heap α) : Nat := h.heaps.length

/-- `Top` (heap.go 46-51): panics (modelled as `none`) when empty,
otherwise returns `h.heaps[0]`. -/
def Heap.Top [Inhabited α] (h : Heap α) : Option α :=
  if h.Empty then none else some (get h.heaps 0)

/-- `Pop` (heap.go 55-68): no-op when empty; otherwise swap root with the
last element, truncate, and sift down from the root if anything remains. -/
def Heap.Pop [Inhabited α] (h : Heap α) : Heap α :=
  if h.Empty then h
  else
    let h1 := h.swap 0 (h.heaps.length - 1)
    let h2 : Heap α := { h1 with heaps := h1.heaps.take (h1.heaps.length - 1) }
    if h2.heaps.length > 0 then h2.down 0 else h2

/-- `Pop` iterated `k` times. -/
def Heap.popTimes [Inhabited α] (h : Heap α) : Nat → Heap α
  | 0 => h
  | k + 1 => (h.Pop).popTimes k

/-- One public mutating call: `Push x` or `Pop`. -/
inductive HeapOp (α : Type) where
  | push (x : α)
  | pop

/-- Apply one call to the container. -/
def applyOp [Inhabited α] (h : Heap α) : HeapOp α → Heap α
  | .push x => h.Push x
  | .pop => h.Pop

/-- Apply a sequence of `Push`/`Pop` calls left to right. -/
def applyOps [Inhabited α] (h : Heap α) (ops : List (HeapOp α)) : Heap α :=
  ops.foldl applyOp h

/-- `Push` every element of `xs`, in order. -/
def Heap.pushAll [Inhabited α] (h : Heap α) (xs : List α) : Heap α :=
  xs.foldl Heap.Push h

/-- Read `Top`, then `Pop`, `n` times; the list of values read.  An empty
heap would make `Top` panic (`none`), ending the list early. -/
def Heap.extractN [Inhabited α] (h : Heap α) : Nat → List α
  | 0 => []
  | n + 1 =>
    match h.Top with
    | none => []
    | some t => t :: (h.Pop).extractN n

/-- Number of `Push` calls in a call sequence. -/
def countPush : List (HeapOp α) → Nat
  | [] => 0
  | HeapOp.push _ :: rest => countPush rest + 1
  | HeapOp.pop :: rest => countPush rest

/-- Number of `Pop` calls in a call sequence that execute while the
storage is non-empty, starting from heap `h`. -/
def countEffectivePop [Inhabited α] (h : Heap α) : List (HeapOp α) → Nat
  | [] => 0
  | op :: rest =>
    (match op with
      | HeapOp.push _ => 0
      | HeapOp.pop => if h.Empty then 0 else 1) + countEffectivePop (applyOp h op) rest

/-- Fuel-bounded variant of `up`, to state termination: `none` means the
fuel ran out before the sift-up walk stopped. -/
def upFuel [Inhabited α] (less : α → α → Bool) : Nat → List α → Nat → Option (List α)
  | 0, _, _ => none
  | fuel + 1, l, index =>
    if index = 0 then some l
    else
      let parent := (index - 1) / 2
      if less (get l index) (get l parent) = true then
        upFuel less fuel (swapList l index parent) parent
      else some l

/-- The default comparator `a < b` that `New` installs for ordered types
(heap.go 18-24), at type `Nat`. -/
def natLess : Nat → Nat → Bool := fun a b => decide (a < b)

/-- The comparator contract the spec's data model states: `less` is
"total enough to define a valid ordering" — a strict weak order, written
as asymmetry plus negative transitivity. -/
def ValidOrdering (less : α → α → Bool) : Prop :=
  (∀ a b, less a b = true → less b a = false) ∧
  (∀ a b c, less a b = false → less b c = false → less a c = false)

/-- The heap property in the spec's indexed form: no child strictly
precedes its parent. -/
def heapProp [Inhabited α] (less : α → α → Bool) (l : List α) : Prop :=
  ∀ i c : Nat, (c = 2 * i + 1 ∨ c = 2 * i + 2) → c < l.length →
    less (get l c) (get l i) = false

/-- The heap property, child-centric form: every non-root in-range index
does not strictly precede its parent `(c-1)/2`. -/
def heapOrdered [Inhabited α] (less : α → α → Bool) (l : List α) : Prop :=
  ∀ c : Nat, 0 < c → c < l.length → less (get l c) (get l ((c - 1) / 2)) = false

/-- Sift-up intermediate state with the hole at `i`: every non-root index
other than `i` respects its parent, and the children of `i` already
respect `i`'s parent (so the parent may move down into the hole). -/
def siftUpPre [Inhabited α] (less : α → α → Bool) (l : List α) (i : Nat) : Prop :=
  (∀ c : Nat, 0 < c → c < l.length → c ≠ i → less (get l c) (get l ((c - 1) / 2)) = false) ∧
  (∀ c : Nat, 0 < c → c < l.length → (c - 1) / 2 = i → 0 < i →
    less (get l c) (get l ((i - 1) / 2)) = false)

/-- Sift-down intermediate state with the hole at `i`: every non-root
index whose parent is not `i` respects its parent, and the children of
`i` respect `i`'s parent. -/
def siftDownPre [Inhabited α] (less : α → α → Bool) (l : List α) (i : Nat) : Prop :=
  (∀ c : Nat, 0 < c → c < l.length → (c - 1) / 2 ≠ i →
    less (get l c) (get l ((c - 1) / 2)) = false) ∧
  (∀ c : Nat, 0 < c → c < l.length → (c - 1) / 2 = i → 0 < i →
    less (get l c) (get l ((i - 1) / 2)) = false)

end HeapGo

namespace HeapGo

variable {α : Type}

/-! ## Basic facts about `get`, `set`, and `swapList` -/

theorem get_eq_getElem [Inhabited α] (l : List α) (i : Nat) (h : i < l.length) :
    get l i = l[i] := by
  simp [get, List.getD_eq_getElem?_getD, List.getElem?_eq_getElem, h]

theorem get_set_self [Inhabited α] (l : List α) (i : Nat) (a : α) (h : i < l.length) :
    get (l.set i a) i = a := by
  simp [get, List.getD_eq_getElem?_getD, List.getElem?_set_self', List.getElem?_eq_getElem, h]

theorem get_set_ne [Inhabited α] (l : List α) (i j : Nat) (a : α) (h : j ≠ i) :
    get (l.set i a) j = get l j := by
  simp [get, List.getD_eq_getElem?_getD, List.getElem?_set_ne (Ne.symm h)]

theorem get_append_lt [Inhabited α] (l l2 : List α) (i : Nat) (h : i < l.length) :
    get (l ++ l2) i = get l i := by
  simp [get, List.getD_eq_getElem?_getD, List.getElem?_append_left h]

theorem get_append_len [Inhabited α] (l : List α) (x : α) :
    get (l ++ [x]) l.length = x := by
  simp [get, List.getD_eq_getElem?_getD]

theorem get_take [Inhabited α] (l : List α) (n i : Nat) (h : i < n) :
    get (l.take n) i = get l i := by
  simp [get, List.getD_eq_getElem?_getD, List.getElem?_take, h]

theorem length_swapList [Inhabited α] (l : List α) (i j : Nat) :
    (swapList l i j).length = l.length := by
  simp [swapList]

theorem get_swapList [Inhabited α] (l : List α) (i j k : Nat)
    (hi : i < l.length) (hj : j < l.length) :
    get (swapList l i j) k =
      if k = j then get l i else if k = i then get l j else get l k := by
  unfold swapList
  split_ifs with h1 h2
  · subst h1
    exact get_set_self _ _ _ (by simpa using hj)
  · subst h2
    rw [get_set_ne _ _ _ _ h1, get_set_self _ _ _ hi]
  · rw [get_set_ne _ _ _ _ h1, get_set_ne _ _ _ _ h2]

/-! ## One-step unfolding and size preservation for the sift walks -/

theorem up_eq [Inhabited α] (less : α → α → Bool) (l : List α) (i : Nat) :
    up less l i = if i = 0 then l
      else if less (get l i) (get l ((i - 1) / 2)) = true then
        up less (swapList l i ((i - 1) / 2)) ((i - 1) / 2)
      else l := by
  rw [up]

theorem down_eq [Inhabited α] (less : α → α → Bool) (l : List α) (i : Nat) :
    down less l i = if downSmallest less l i = i then l
      else down less (swapList l i (downSmallest less l i)) (downSmallest less l i) := by
  rw [down]
  rfl

theorem downSmallest_bounds [Inhabited α] (less : α → α → Bool) (l : List α) (index : Nat)
    (h : downSmallest less l index ≠ index) :
    index < downSmallest less l index ∧ downSmallest less l index < l.length := by
  simp only [downSmallest] at h ⊢
  split_ifs at h ⊢ <;> omega

theorem length_up [Inhabited α] (less : α → α → Bool) :
    ∀ (i : Nat) (l : List α), (up less l i).length = l.length := by
  intro i
  induction i using Nat.strong_induction_on with
  | _ i ih =>
    intro l
    rw [up_eq]
    split_ifs with h1 h2
    · rfl
    · rw [ih ((i - 1) / 2) (by omega), length_swapList]
    · rfl

theorem length_down [Inhabited α] (less : α → α → Bool) :
    ∀ (m : Nat) (l : List α) (i : Nat), l.length - i = m → (down less l i).length = l.length := by
  intro m
  induction m using Nat.strong_induction_on with
  | _ m ih =>
    intro l i hm
    rw [down_eq]
    split_ifs with h
    · rfl
    · have hb := downSmallest_bounds less l i h
      rw [ih (l.length - downSmallest less l i) (by omega) _ _ (by rw [length_swapList]),
        length_swapList]

/-! ## The sift walks only permute the storage -/

theorem multiset_set [Inhabited α] (l : List α) (i : Nat) (a : α) (h : i < l.length) :
    get l i ::ₘ (↑(l.set i a) : Multiset α) = a ::ₘ ↑l := by
  induction l generalizing i with
  | nil => simp at h
  | cons hd tl ih =>
    cases i with
    | zero =>
      simp only [List.set_cons_zero, get, List.getD_cons_zero, ← Multiset.cons_coe]
      exact Multiset.cons_swap hd a ↑tl
    | succ i =>
      simp only [List.set_cons_succ, get, List.getD_cons_succ, ← Multiset.cons_coe]
      rw [Multiset.cons_swap]
      rw [show (tl.getD i default ::ₘ ↑(tl.set i a) : Multiset α) = a ::ₘ ↑tl from
        ih i (by simpa using h)]
      rw [Multiset.cons_swap]

theorem multiset_swapList [Inhabited α] (l : List α) (i j : Nat)
    (hi : i < l.length) (hj : j < l.length) :
    (↑(swapList l i j) : Multiset α) = ↑l := by
  have hg : get (l.set i (get l j)) j = get l j := by
    by_cases h : j = i
    · subst h
      exact get_set_self _ _ _ hj
    · exact get_set_ne _ _ _ _ h
  have m1 := multiset_set l i (get l j) hi
  have m2 := multiset_set (l.set i (get l j)) j (get l i) (by simpa using hj)
  rw [hg, m1] at m2
  exact (Multiset.cons_inj_right _).mp m2

theorem multiset_up [Inhabited α] (less : α → α → Bool) :
    ∀ (i : Nat) (l : List α), i < l.length → (↑(up less l i) : Multiset α) = ↑l := by
  intro i
  induction i using Nat.strong_induction_on with
  | _ i ih =>
    intro l hi
    rw [up_eq]
    split_ifs with h1 h2
    · rfl
    · rw [ih ((i - 1) / 2) (by omega) _ (by rw [length_swapList]; omega),
        multiset_swapList l i ((i - 1) / 2) hi (by omega)]
    · rfl

theorem multiset_down [Inhabited α] (less : α → α → Bool) :
    ∀ (m : Nat) (l : List α) (i : Nat), l.length - i = m →
      (↑(down less l i) : Multiset α) = ↑l := by
  intro m
  induction m using Nat.strong_induction_on with
  | _ m ih =>
    intro l i hm
    rw [down_eq]
    split_ifs with h
    · rfl
    · have hb := downSmallest_bounds less l i h
      rw [ih (l.length - downSmallest less l i) (by omega) _ _ (by rw [length_swapList]),
        multiset_swapList l i (downSmallest less l i) (by omega) hb.2]

theorem mem_iff_get [Inhabited α] {l : List α} {a : α} :
    a ∈ l ↔ ∃ j : Nat, j < l.length ∧ get l j = a := by
  constructor
  · intro h
    obtain ⟨j, hj, he⟩ := List.getElem_of_mem h
    exact ⟨j, hj, by rw [get_eq_getElem _ _ hj, he]⟩
  · rintro ⟨j, hj, he⟩
    rw [← he, get_eq_getElem _ _ hj]
    exact List.getElem_mem hj

/-! ## Consequences of the comparator contract -/

theorem vo_trans {less : α → α → Bool} (hv : ValidOrdering less) {a b c : α}
    (h1 : less a b = true) (h2 : less b c = true) : less a c = true := by
  cases hac : less a c
  · have hab := hv.2 a c b hac (hv.1 b c h2)
    rw [h1] at hab
    simp at hab
  · rfl

theorem vo_irrefl {less : α → α → Bool} (hv : ValidOrdering less) (a : α) :
    less a a = false := by
  cases h : less a a
  · rfl
  · have := hv.1 a a h
    rw [h] at this
    simp at this

/-! ## Characterizing the sift-down child selection -/

theorem downSmallest_eq_self [Inhabited α] {less : α → α → Bool} {l : List α} {i : Nat}
    (h : downSmallest less l i = i) :
    (2 * i + 1 < l.length → less (get l (2 * i + 1)) (get l i) = false) ∧
    (2 * i + 2 < l.length → less (get l (2 * i + 2)) (get l i) = false) := by
  simp only [downSmallest] at h
  split_ifs at h with h1 h2 h3 <;> try omega
  constructor
  · intro hin
    cases hb : less (get l (2 * i + 1)) (get l i)
    · rfl
    · exact absurd ⟨hin, hb⟩ h1
  · intro hin
    cases hb : less (get l (2 * i + 2)) (get l i)
    · rfl
    · exact absurd ⟨hin, hb⟩ h3

theorem downSmallest_spec_ne [Inhabited α] {less : α → α → Bool} {l : List α} {i s : Nat}
    (hv : ValidOrdering less) (hs : downSmallest less l i = s) (h : s ≠ i) :
    (s = 2 * i + 1 ∨ s = 2 * i + 2) ∧ s < l.length ∧
      less (get l s) (get l i) = true ∧
      ∀ o : Nat, (o = 2 * i + 1 ∨ o = 2 * i + 2) → o < l.length → o ≠ s →
        less (get l o) (get l s) = false := by
  simp only [downSmallest] at hs
  split_ifs at hs with h1 h2 h3
  · -- left beat the parent, then right beat left
    subst hs
    refine ⟨Or.inr rfl, h2.1, vo_trans hv h2.2 h1.2, ?_⟩
    intro o ho hol hos
    have hol1 : o = 2 * i + 1 := by omega
    subst hol1
    exact hv.1 _ _ h2.2
  · -- left beat the parent, right did not beat left
    subst hs
    refine ⟨Or.inl rfl, h1.1, h1.2, ?_⟩
    intro o ho hol hos
    have hol2 : o = 2 * i + 2 := by omega
    subst hol2
    cases hb : less (get l (2 * i + 2)) (get l (2 * i + 1))
    · rfl
    · exact absurd ⟨hol, hb⟩ h2
  · -- left did not beat the parent, right beat the parent
    subst hs
    refine ⟨Or.inr rfl, h3.1, h3.2, ?_⟩
    intro o ho hol hos
    have hol1 : o = 2 * i + 1 := by omega
    subst hol1
    cases hb : less (get l (2 * i + 1)) (get l (2 * i + 2))
    · rfl
    · exact absurd ⟨hol, vo_trans hv hb h3.2⟩ h1
  · exact absurd hs.symm h

/-! ## Sift-up restores the heap property -/

theorem siftUpPre_step [Inhabited α] {less : α → α → Bool} (hv : ValidOrdering less)
    {l : List α} {i : Nat} (hi : i < l.length) (h0 : ¬i = 0)
    (hlt : less (get l i) (get l ((i - 1) / 2)) = true)
    (hpre : siftUpPre less l i) :
    siftUpPre less (swapList l i ((i - 1) / 2)) ((i - 1) / 2) := by
  obtain ⟨hA, hB⟩ := hpre
  have hpl : (i - 1) / 2 < l.length := by omega
  have gsw : ∀ k, get (swapList l i ((i - 1) / 2)) k =
      if k = (i - 1) / 2 then get l i else if k = i then get l ((i - 1) / 2) else get l k :=
    fun k => get_swapList l i ((i - 1) / 2) k hi hpl
  have e_hole : get (swapList l i ((i - 1) / 2)) ((i - 1) / 2) = get l i := by
    rw [gsw ((i - 1) / 2), if_pos rfl]
  have e_old : get (swapList l i ((i - 1) / 2)) i = get l ((i - 1) / 2) := by
    rw [gsw i, if_neg (by omega : ¬i = (i - 1) / 2), if_pos rfl]
  have e_keep : ∀ k, k ≠ i → k ≠ (i - 1) / 2 → get (swapList l i ((i - 1) / 2)) k = get l k := by
    intro k hk1 hk2
    rw [gsw k, if_neg hk2, if_neg hk1]
  constructor
  · -- every non-root index other than the new hole respects its parent
    intro c hc hcl hcp
    rw [length_swapList] at hcl
    by_cases hci : c = i
    · subst hci
      rw [e_old, e_hole]
      exact hv.1 _ _ hlt
    · by_cases hqi : (c - 1) / 2 = i
      · -- c was a child of the old hole: use the bridge at the call
        rw [e_keep c hci hcp, hqi, e_old]
        exact hB c hc hcl hqi (by omega)
      · by_cases hqp : (c - 1) / 2 = (i - 1) / 2
        · -- c is the sibling of the old hole: transitivity through the old parent
          rw [e_keep c hci hcp, hqp, e_hole]
          have hcv := hA c hc hcl hci
          rw [hqp] at hcv
          cases hb : less (get l c) (get l i)
          · rfl
          · have hcc := vo_trans hv hb hlt
            rw [hcv] at hcc
            simp at hcc
        · -- untouched edge
          rw [e_keep c hci hcp, e_keep _ hqi hqp]
          exact hA c hc hcl hci
  · -- children of the new hole respect the new hole's parent
    intro c hc hcl hcq hp0
    rw [length_swapList] at hcl
    have hgpi : ((i - 1) / 2 - 1) / 2 ≠ i := by omega
    have hgpp : ((i - 1) / 2 - 1) / 2 ≠ (i - 1) / 2 := by omega
    rw [e_keep (((i - 1) / 2 - 1) / 2) hgpi hgpp]
    by_cases hci : c = i
    · subst hci
      rw [e_old]
      exact hA ((c - 1) / 2) hp0 hpl (by omega)
    · have hcp : c ≠ (i - 1) / 2 := by omega
      rw [e_keep c hci hcp]
      have h1 := hA c hc hcl hci
      rw [hcq] at h1
      have h2 := hA ((i - 1) / 2) hp0 hpl (by omega)
      exact hv.2 _ _ _ h1 h2

theorem up_heapOrdered [Inhabited α] {less : α → α → Bool} (hv : ValidOrdering less) :
    ∀ (i : Nat) (l : List α), i < l.length → siftUpPre less l i →
      heapOrdered less (up less l i) := by
  intro i
  induction i using Nat.strong_induction_on with
  | _ i ih =>
    intro l hi hpre
    rw [up_eq]
    split_ifs with h0 hlt
    · subst h0
      intro c hc hcl
      exact hpre.1 c hc hcl (by omega)
    · exact ih ((i - 1) / 2) (by omega) _ (by rw [length_swapList]; omega)
        (siftUpPre_step hv hi h0 hlt hpre)
    · intro c hc hcl
      by_cases hci : c = i
      · subst hci
        cases hb : less (get l c) (get l ((c - 1) / 2))
        · rfl
        · exact absurd hb hlt
      · exact hpre.1 c hc hcl hci

/-! ## Sift-down restores the heap property -/

theorem siftDownPre_step [Inhabited α] {less : α → α → Bool} (hv : ValidOrdering less)
    {l : List α} {i s : Nat} (hi : i < l.length) (hsl : s < l.length) (his : i < s)
    (hch : s = 2 * i + 1 ∨ s = 2 * i + 2)
    (hlt : less (get l s) (get l i) = true)
    (hother : ∀ o : Nat, (o = 2 * i + 1 ∨ o = 2 * i + 2) → o < l.length → o ≠ s →
      less (get l o) (get l s) = false)
    (hpre : siftDownPre less l i) :
    siftDownPre less (swapList l i s) s := by
  obtain ⟨hA, hB⟩ := hpre
  have hsi : (s - 1) / 2 = i := by omega
  have gsw : ∀ k, get (swapList l i s) k =
      if k = s then get l i else if k = i then get l s else get l k :=
    fun k => get_swapList l i s k hi hsl
  have e_s : get (swapList l i s) s = get l i := by rw [gsw s, if_pos rfl]
  have e_i : get (swapList l i s) i = get l s := by
    rw [gsw i, if_neg (by omega : ¬i = s), if_pos rfl]
  have e_keep : ∀ k, k ≠ i → k ≠ s → get (swapList l i s) k = get l k := by
    intro k hk1 hk2
    rw [gsw k, if_neg hk2, if_neg hk1]
  constructor
  · intro c hc hcl hcq
    rw [length_swapList] at hcl
    by_cases hcs : c = s
    · -- the edge from the old hole to the swapped pair
      subst hcs
      rw [hsi, e_s, e_i]
      exact hv.1 _ _ hlt
    · by_cases hci : c = i
      · -- the edge above the old hole: use the bridge at the call
        subst hci
        have hq1 : (c - 1) / 2 ≠ c := by omega
        have hq2 : (c - 1) / 2 ≠ s := by omega
        rw [e_i, e_keep _ hq1 hq2]
        exact hB s (by omega) hsl hsi hc
      · by_cases hqi : (c - 1) / 2 = i
        · -- the other child of the old hole: the selection chose s over it
          rw [e_keep c hci hcs, hqi, e_i]
          exact hother c (by omega) hcl hcs
        · -- untouched edge
          rw [e_keep c hci hcs, e_keep _ hqi hcq]
          exact hA c hc hcl hqi
  · -- children of the new hole respect the new hole's parent
    intro c hc hcl hcq hs0
    rw [length_swapList] at hcl
    have hcs : c ≠ s := by omega
    have hci : c ≠ i := by omega
    rw [e_keep c hci hcs, hsi, e_i]
    have h1 := hA c hc hcl (by omega)
    rw [hcq] at h1
    exact h1

theorem down_heapOrdered [Inhabited α] {less : α → α → Bool} (hv : ValidOrdering less) :
    ∀ (m : Nat) (l : List α) (i : Nat), l.length - i = m → i < l.length →
      siftDownPre less l i → heapOrdered less (down less l i) := by
  intro m
  induction m using Nat.strong_induction_on with
  | _ m ih =>
    intro l i hm hi hpre
    rw [down_eq]
    split_ifs with hstop
    · -- selection stopped: the two failed comparisons close the hole
      intro c hc hcl
      by_cases hqi : (c - 1) / 2 = i
      · have hds := downSmallest_eq_self hstop
        have hcch : c = 2 * i + 1 ∨ c = 2 * i + 2 := by omega
        rw [hqi]
        cases hcch with
        | inl h => rw [h]; exact hds.1 (h ▸ hcl)
        | inr h => rw [h]; exact hds.2 (h ▸ hcl)
      · exact hpre.1 c hc hcl hqi
    · have hbnd := downSmallest_bounds less l i hstop
      obtain ⟨hch, hsl, hlt, hother⟩ := downSmallest_spec_ne hv rfl hstop
      exact ih (l.length - downSmallest less l i) (by omega) _ _
        (by rw [length_swapList]) (by rw [length_swapList]; exact hsl)
        (siftDownPre_step hv hi hsl hbnd.1 hch hlt hother hpre)

/-! ## The two forms of the heap property agree -/

theorem heapOrdered_iff_heapProp [Inhabited α] {less : α → α → Bool} {l : List α} :
    heapOrdered less l ↔ heapProp less l := by
  constructor
  · intro h i c hch hcl
    have h1 : (c - 1) / 2 = i := by omega
    have h2 := h c (by omega) hcl
    rw [h1] at h2
    exact h2
  · intro h c hc hcl
    exact h ((c - 1) / 2) c (by omega) hcl

/-! ## `Push` preserves the heap property -/

theorem siftUpPre_append [Inhabited α] {less : α → α → Bool} {l : List α}
    (h : heapOrdered less l) (x : α) :
    siftUpPre less (l ++ [x]) l.length := by
  constructor
  · intro c hc hcl hci
    rw [List.length_append] at hcl
    have hcl2 : c < l.length := by simp at hcl; omega
    rw [get_append_lt _ _ _ hcl2, get_append_lt _ _ _ (by omega)]
    exact h c hc hcl2
  · intro c hc hcl hcq
    rw [List.length_append] at hcl
    simp at hcl
    omega

theorem Push_heaps [Inhabited α] (h : Heap α) (x : α) :
    (h.Push x).heaps = up h.lessFunc (h.heaps ++ [x]) ((h.heaps ++ [x]).length - 1) := rfl

theorem Push_lessFunc [Inhabited α] (h : Heap α) (x : α) :
    (h.Push x).lessFunc = h.lessFunc := rfl

theorem heapOrdered_Push [Inhabited α] {h : Heap α} (hv : ValidOrdering h.lessFunc)
    (hh : heapOrdered h.lessFunc h.heaps) (x : α) :
    heapOrdered h.lessFunc (h.Push x).heaps := by
  rw [Push_heaps]
  have hlen : (h.heaps ++ [x]).length - 1 = h.heaps.length := by simp
  rw [hlen]
  exact up_heapOrdered hv h.heaps.length (h.heaps ++ [x]) (by simp)
    (siftUpPre_append hh x)

theorem Size_Push [Inhabited α] (h : Heap α) (x : α) : (h.Push x).Size = h.Size + 1 := by
  show (h.Push x).heaps.length = h.heaps.length + 1
  rw [Push_heaps, length_up]
  simp

theorem multiset_Push [Inhabited α] (h : Heap α) (x : α) :
    (↑(h.Push x).heaps : Multiset α) = x ::ₘ ↑h.heaps := by
  rw [Push_heaps, multiset_up _ _ _ (by simp)]
  simp

/-! ## Unfolding `Pop` -/

theorem Pop_of_empty [Inhabited α] (h : Heap α) (he : h.heaps = []) : h.Pop = h := by
  have hemp : h.Empty = true := by simp [Heap.Empty, he]
  unfold Heap.Pop
  rw [hemp]
  simp

theorem Pop_lessFunc [Inhabited α] (h : Heap α) : h.Pop.lessFunc = h.lessFunc := by
  unfold Heap.Pop Heap.swap Heap.down
  dsimp only
  split_ifs <;> rfl

theorem take_swap_length [Inhabited α] (h : Heap α) :
    ((swapList h.heaps 0 (h.heaps.length - 1)).take (h.heaps.length - 1)).length
      = h.heaps.length - 1 := by
  rw [List.length_take, length_swapList]
  omega

theorem Pop_heaps_one [Inhabited α] (h : Heap α) (he : h.heaps.length = 1) :
    h.Pop.heaps = [] := by
  have hemp : h.Empty = false := by
    simp only [Heap.Empty, beq_eq_false_iff_ne]
    omega
  unfold Heap.Pop
  rw [hemp]
  simp only [Bool.false_eq_true, if_false, Heap.swap, Heap.down, length_swapList]
  rw [if_neg]
  · simp [he]
  · rw [take_swap_length]
    omega

theorem Pop_heaps_down [Inhabited α] (h : Heap α) (hgt : 1 < h.heaps.length) :
    h.Pop.heaps =
      down h.lessFunc ((swapList h.heaps 0 (h.heaps.length - 1)).take (h.heaps.length - 1)) 0 := by
  have hemp : h.Empty = false := by
    simp only [Heap.Empty, beq_eq_false_iff_ne]
    omega
  unfold Heap.Pop
  rw [hemp]
  simp only [Bool.false_eq_true, if_false, Heap.swap, Heap.down, length_swapList]
  rw [if_pos]
  rw [take_swap_length]
  omega

/-! ## `Pop` preserves the heap property -/

theorem siftDownPre_pop [Inhabited α] {less : α → α → Bool} {l : List α}
    (hh : heapOrdered less l) (hgt : 1 < l.length) :
    siftDownPre less ((swapList l 0 (l.length - 1)).take (l.length - 1)) 0 := by
  constructor
  · intro c hc hcl hq0
    rw [List.length_take, length_swapList] at hcl
    have hcl2 : c < l.length - 1 := by omega
    have e1 : get (swapList l 0 (l.length - 1)) c = get l c := by
      rw [get_swapList _ _ _ _ (by omega) (by omega), if_neg (by omega), if_neg (by omega)]
    have e2 : get (swapList l 0 (l.length - 1)) ((c - 1) / 2) = get l ((c - 1) / 2) := by
      rw [get_swapList _ _ _ _ (by omega) (by omega), if_neg (by omega), if_neg hq0]
    rw [get_take _ _ _ hcl2, get_take _ _ _ (by omega), e1, e2]
    exact hh c hc (by omega)
  · intro c hc hcl hcq h0
    omega

theorem heapOrdered_Pop [Inhabited α] {h : Heap α} (hv : ValidOrdering h.lessFunc)
    (hh : heapOrdered h.lessFunc h.heaps) : heapOrdered h.lessFunc h.Pop.heaps := by
  rcases Nat.lt_trichotomy h.heaps.length 1 with h0 | h1 | h2
  · have hnil : h.heaps = [] := by
      cases hl : h.heaps
      · rfl
      · rw [hl] at h0
        simp at h0
    rw [Pop_of_empty h hnil]
    exact hh
  · rw [Pop_heaps_one h h1]
    intro c hc hcl
    simp at hcl
  · rw [Pop_heaps_down h h2]
    exact down_heapOrdered hv _ _ 0 rfl (by rw [List.length_take, length_swapList]; omega)
      (siftDownPre_pop hh h2)

theorem Size_Pop_ne [Inhabited α] (h : Heap α) (hne : h.heaps.length ≠ 0) :
    h.Pop.Size = h.Size - 1 := by
  rcases Nat.lt_or_ge 1 h.heaps.length with hgt | hle
  · show h.Pop.heaps.length = h.heaps.length - 1
    rw [Pop_heaps_down h hgt, length_down _ _ _ _ rfl, List.length_take, length_swapList]
    omega
  · have h1 : h.heaps.length = 1 := by omega
    show h.Pop.heaps.length = h.heaps.length - 1
    rw [Pop_heaps_one h h1, h1]
    rfl

theorem take_sub_one_append [Inhabited α] (l : List α) (hne : l.length ≠ 0) :
    l.take (l.length - 1) ++ [get l (l.length - 1)] = l := by
  have h : l.length - 1 < l.length := by omega
  rw [get_eq_getElem _ _ h, List.take_concat_get' l _ h]
  have h2 : l.length - 1 + 1 = l.length := by omega
  rw [h2, List.take_length]

theorem multiset_Pop [Inhabited α] (h : Heap α) (hne : h.heaps.length ≠ 0) :
    get h.heaps 0 ::ₘ (↑h.Pop.heaps : Multiset α) = ↑h.heaps := by
  have h0 : 0 < h.heaps.length := by omega
  have hl1 : h.heaps.length - 1 < h.heaps.length := by omega
  have hpop : (↑h.Pop.heaps : Multiset α) =
      ↑((swapList h.heaps 0 (h.heaps.length - 1)).take (h.heaps.length - 1)) := by
    rcases Nat.lt_or_ge 1 h.heaps.length with hgt | hle
    · rw [Pop_heaps_down h hgt]
      exact multiset_down _ _ _ 0 rfl
    · have h1 : h.heaps.length = 1 := by omega
      rw [Pop_heaps_one h h1, h1]
      simp
  have hlast : get (swapList h.heaps 0 (h.heaps.length - 1)) (h.heaps.length - 1)
      = get h.heaps 0 := by
    rw [get_swapList _ _ _ _ h0 hl1, if_pos rfl]
  have hsw := take_sub_one_append (swapList h.heaps 0 (h.heaps.length - 1))
    (by rw [length_swapList]; omega)
  rw [length_swapList, hlast] at hsw
  have hm : (↑(swapList h.heaps 0 (h.heaps.length - 1)) : Multiset α) = ↑h.heaps :=
    multiset_swapList _ _ _ h0 hl1
  have hcons : (↑(((swapList h.heaps 0 (h.heaps.length - 1)).take (h.heaps.length - 1))
      ++ [get h.heaps 0]) : Multiset α)
      = get h.heaps 0 ::ₘ
        ↑((swapList h.heaps 0 (h.heaps.length - 1)).take (h.heaps.length - 1)) := by
    simp
  rw [hsw, hm] at hcons
  rw [hpop, ← hcons]

/-! ## Invariants along a call sequence -/

theorem applyOp_lessFunc [Inhabited α] (h : Heap α) (op : HeapOp α) :
    (applyOp h op).lessFunc = h.lessFunc := by
  cases op
  · rfl
  · exact Pop_lessFunc h

theorem applyOps_lessFunc [Inhabited α] (h : Heap α) (ops : List (HeapOp α)) :
    (applyOps h ops).lessFunc = h.lessFunc := by
  induction ops generalizing h with
  | nil => rfl
  | cons op rest ih =>
    rw [show applyOps h (op :: rest) = applyOps (applyOp h op) rest from rfl, ih,
      applyOp_lessFunc]

theorem applyOps_heapOrdered [Inhabited α] {h : Heap α} (hv : ValidOrdering h.lessFunc)
    (hh : heapOrdered h.lessFunc h.heaps) (ops : List (HeapOp α)) :
    heapOrdered (applyOps h ops).lessFunc (applyOps h ops).heaps := by
  induction ops generalizing h with
  | nil => exact hh
  | cons op rest ih =>
    have hstep : heapOrdered (applyOp h op).lessFunc (applyOp h op).heaps := by
      cases op with
      | push x =>
        show heapOrdered (h.Push x).lessFunc (h.Push x).heaps
        rw [Push_lessFunc]
        exact heapOrdered_Push hv hh x
      | pop =>
        show heapOrdered h.Pop.lessFunc h.Pop.heaps
        rw [Pop_lessFunc]
        exact heapOrdered_Pop hv hh
    have hv2 : ValidOrdering (applyOp h op).lessFunc := by
      rw [applyOp_lessFunc]
      exact hv
    exact ih hv2 hstep

theorem freshHeap_heapOrdered [Inhabited α] (less : α → α → Bool) :
    heapOrdered less (freshHeap less).heaps := by
  intro c hc hcl
  simp [freshHeap] at hcl

/-! ## `Top` and minimality of the root -/

theorem Top_of_ne [Inhabited α] (h : Heap α) (hne : h.heaps.length ≠ 0) :
    h.Top = some (get h.heaps 0) := by
  have hemp : h.Empty = false := by
    simp only [Heap.Empty, beq_eq_false_iff_ne]
    omega
  unfold Heap.Top
  rw [hemp]
  simp

theorem Top_of_empty [Inhabited α] (h : Heap α) (he : h.heaps.length = 0) :
    h.Top = none := by
  have hemp : h.Empty = true := by simp [Heap.Empty, he]
  unfold Heap.Top
  rw [hemp]
  simp

theorem root_min [Inhabited α] {less : α → α → Bool} (hv : ValidOrdering less)
    {l : List α} (hh : heapOrdered less l) :
    ∀ j : Nat, j < l.length → less (get l j) (get l 0) = false := by
  intro j
  induction j using Nat.strong_induction_on with
  | _ j ih =>
    intro hj
    rcases Nat.eq_zero_or_pos j with h0 | hpos
    · subst h0
      exact vo_irrefl hv _
    · exact hv.2 _ _ _ (hh j hpos hj) (ih ((j - 1) / 2) (by omega) (by omega))

theorem mem_Pop [Inhabited α] {h : Heap α} (hne : h.heaps.length ≠ 0) {a : α}
    (ha : a ∈ h.Pop.heaps) : a ∈ h.heaps := by
  have hm := multiset_Pop h hne
  have h2 : a ∈ (↑h.heaps : Multiset α) := by
    rw [← hm]
    exact Multiset.mem_cons_of_mem (by simpa using ha)
  simpa using h2

/-! ## Repeated extraction -/

theorem extractN_of_empty [Inhabited α] (h : Heap α) (he : h.heaps.length = 0) (n : Nat) :
    h.extractN n = [] := by
  cases n
  · rfl
  · rw [Heap.extractN, Top_of_empty h he]

theorem extractN_succ_of_ne [Inhabited α] (h : Heap α) (hne : h.heaps.length ≠ 0) (n : Nat) :
    h.extractN (n + 1) = get h.heaps 0 :: h.Pop.extractN n := by
  rw [Heap.extractN, Top_of_ne h hne]

theorem extractN_mem [Inhabited α] {h : Heap α} {n : Nat} {a : α}
    (ha : a ∈ h.extractN n) : a ∈ h.heaps := by
  induction n generalizing h with
  | zero => simp [Heap.extractN] at ha
  | succ n ih =>
    by_cases hne : h.heaps.length = 0
    · rw [extractN_of_empty h hne] at ha
      simp at ha
    · rw [extractN_succ_of_ne h hne] at ha
      rcases List.mem_cons.mp ha with h1 | h2
      · subst h1
        exact mem_iff_get.mpr ⟨0, by omega, rfl⟩
      · exact mem_Pop hne (ih h2)

theorem extractN_pairwise [Inhabited α] {less : α → α → Bool} (hv : ValidOrdering less) :
    ∀ (n : Nat) (h : Heap α), h.lessFunc = less → heapOrdered less h.heaps →
      (h.extractN n).Pairwise (fun a b => less b a = false) := by
  intro n
  induction n with
  | zero =>
    intro h _ _
    simp [Heap.extractN]
  | succ n ih =>
    intro h hf hh
    by_cases hne : h.heaps.length = 0
    · rw [extractN_of_empty h hne]
      simp
    · rw [extractN_succ_of_ne h hne]
      have hvh : ValidOrdering h.lessFunc := by rw [hf]; exact hv
      have hhh : heapOrdered h.lessFunc h.heaps := by rw [hf]; exact hh
      have hpop : heapOrdered less h.Pop.heaps := by
        have := heapOrdered_Pop hvh hhh
        rw [hf] at this
        exact this
      refine List.Pairwise.cons ?_ (ih h.Pop (by rw [Pop_lessFunc, hf]) hpop)
      intro b hb
      obtain ⟨j, hj, he⟩ := mem_iff_get.mp (mem_Pop hne (extractN_mem hb))
      rw [← he]
      exact root_min hv hh j hj

/-! ## Size bookkeeping along a call sequence -/

theorem applyOps_size [Inhabited α] :
    ∀ (ops : List (HeapOp α)) (h : Heap α),
      (applyOps h ops).Size + countEffectivePop h ops = h.Size + countPush ops := by
  intro ops
  induction ops with
  | nil =>
    intro h
    simp [applyOps, countEffectivePop, countPush]
  | cons op rest ih =>
    intro h
    cases op with
    | push x =>
      have h1 := ih (h.Push x)
      have h2 := Size_Push h x
      show (applyOps (h.Push x) rest).Size + countEffectivePop h (HeapOp.push x :: rest)
        = h.Size + countPush (HeapOp.push x :: rest)
      rw [countEffectivePop, countPush]
      simp only [applyOp]
      omega
    | pop =>
      have h1 := ih h.Pop
      show (applyOps h.Pop rest).Size + countEffectivePop h (HeapOp.pop :: rest)
        = h.Size + countPush (HeapOp.pop :: rest)
      rw [countEffectivePop, countPush]
      simp only [applyOp]
      by_cases he : h.heaps.length = 0
      · have hemp : h.Empty = true := by simp [Heap.Empty, he]
        have hp : h.Pop = h := Pop_of_empty h (List.length_eq_zero.mp he)
        rw [hp] at h1
        rw [hp, hemp]
        simp only [if_true]
        omega
      · have hemp : h.Empty = false := by
          simp only [Heap.Empty, beq_eq_false_iff_ne]
          omega
        have h2 := Size_Pop_ne h he
        have h3 : h.Size ≠ 0 := he
        rw [hemp]
        simp only [Bool.false_eq_true, if_false]
        omega

theorem popTimes_of_empty [Inhabited α] (h : Heap α) (he : h.heaps.length = 0) :
    ∀ k : Nat, h.popTimes k = h := by
  intro k
  induction k with
  | zero => rfl
  | succ k ih =>
    rw [Heap.popTimes, Pop_of_empty h (List.length_eq_zero.mp he)]
    exact ih

/-! ## Pushing a whole list -/

theorem pushAll_lessFunc [Inhabited α] (h : Heap α) (xs : List α) :
    (h.pushAll xs).lessFunc = h.lessFunc := by
  induction xs generalizing h with
  | nil => rfl
  | cons x t ih =>
    rw [show h.pushAll (x :: t) = (h.Push x).pushAll t from rfl, ih, Push_lessFunc]

theorem pushAll_heapOrdered [Inhabited α] {h : Heap α} (hv : ValidOrdering h.lessFunc)
    (hh : heapOrdered h.lessFunc h.heaps) (xs : List α) :
    heapOrdered h.lessFunc (h.pushAll xs).heaps := by
  induction xs generalizing h with
  | nil => exact hh
  | cons x t ih =>
    have h1 : heapOrdered (h.Push x).lessFunc (h.Push x).heaps := by
      rw [Push_lessFunc]
      exact heapOrdered_Push hv hh x
    have hv1 : ValidOrdering (h.Push x).lessFunc := by
      rw [Push_lessFunc]
      exact hv
    have h2 := ih hv1 h1
    rw [Push_lessFunc] at h2
    exact h2

theorem pushAll_Size [Inhabited α] (h : Heap α) (xs : List α) :
    (h.pushAll xs).Size = h.Size + xs.length := by
  induction xs generalizing h with
  | nil => rfl
  | cons x t ih =>
    rw [show h.pushAll (x :: t) = (h.Push x).pushAll t from rfl, ih, Size_Push,
      List.length_cons]
    omega

theorem extractN_length [Inhabited α] :
    ∀ (n : Nat) (h : Heap α), n ≤ h.Size → (h.extractN n).length = n := by
  intro n
  induction n with
  | zero =>
    intro h _
    rfl
  | succ n ih =>
    intro h hn
    have hsz : h.Size = h.heaps.length := rfl
    have hne : h.heaps.length ≠ 0 := by omega
    rw [extractN_succ_of_ne h hne, List.length_cons,
      ih h.Pop (by rw [Size_Pop_ne h hne]; omega)]

/-- `natLess` is a valid ordering in the sense of the spec. -/
theorem natLess_valid : ValidOrdering natLess := by
  constructor
  · intro a b h
    simp only [natLess, decide_eq_true_eq] at h
    simp only [natLess, decide_eq_false_iff_not]
    omega
  · intro a b c h1 h2
    simp only [natLess, decide_eq_false_iff_not] at h1 h2 ⊢
    omega

/-! ## Claim theorems -/

/-- C1: after every sequence of `Push`/`Pop` calls on a freshly
constructed heap (with a valid ordering predicate), the storage satisfies
the heap property: for every index `i` with a child `c = 2i+1` or
`c = 2i+2` in bounds, `less(storage[c], storage[i])` is false. -/
theorem heap_property_after_push_pop [Inhabited α] (less : α → α → Bool)
    (hv : ValidOrdering less) (ops : List (HeapOp α)) :
    heapProp less (applyOps (freshHeap less) ops).heaps := by
  have h := applyOps_heapOrdered (h := freshHeap less) hv (freshHeap_heapOrdered less) ops
  rw [applyOps_lessFunc] at h
  exact heapOrdered_iff_heapProp.mp h

theorem heap_property_after_push_pop_witness :
    heapProp natLess (applyOps (freshHeap natLess)
      [HeapOp.push 2, HeapOp.push 1, HeapOp.pop, HeapOp.push 3]).heaps :=
  heap_property_after_push_pop natLess natLess_valid _

/-- C2: pushing a list of distinct values (in any order) onto a fresh
heap and then reading `Top`/`Pop` `n` times yields all `n` values in
non-decreasing order under `less`: no later value strictly precedes an
earlier one. -/
theorem sorted_extraction [Inhabited α] (less : α → α → Bool) (hv : ValidOrdering less)
    (xs : List α) (_hnd : xs.Nodup) :
    (((freshHeap less).pushAll xs).extractN xs.length).length = xs.length ∧
    (((freshHeap less).pushAll xs).extractN xs.length).Pairwise
      (fun a b => less b a = false) := by
  constructor
  · apply extractN_length
    rw [pushAll_Size]
    simp [freshHeap, Heap.Size]
  · apply extractN_pairwise hv
    · rw [pushAll_lessFunc]
      rfl
    · exact pushAll_heapOrdered (h := freshHeap less) hv (freshHeap_heapOrdered less) xs

theorem sorted_extraction_witness :
    (((freshHeap natLess).pushAll [3, 1, 2]).extractN [3, 1, 2].length).length
        = [3, 1, 2].length ∧
    (((freshHeap natLess).pushAll [3, 1, 2]).extractN [3, 1, 2].length).Pairwise
      (fun a b => natLess b a = false) :=
  sorted_extraction natLess natLess_valid [3, 1, 2] (by decide)

/-- C3: on every non-empty heap reachable by `Push`/`Pop` from a fresh
heap, `Top` returns a minimal element of the storage: no stored element
strictly precedes it. -/
theorem top_minimal [Inhabited α] (less : α → α → Bool) (hv : ValidOrdering less)
    (ops : List (HeapOp α)) (hne : (applyOps (freshHeap less) ops).heaps ≠ []) :
    ∃ t : α, (applyOps (freshHeap less) ops).Top = some t ∧
      ∀ e ∈ (applyOps (freshHeap less) ops).heaps, less e t = false := by
  have hlen : (applyOps (freshHeap less) ops).heaps.length ≠ 0 := by
    intro h0
    exact hne (List.length_eq_zero.mp h0)
  refine ⟨get (applyOps (freshHeap less) ops).heaps 0, Top_of_ne _ hlen, ?_⟩
  intro e he
  obtain ⟨j, hj, hej⟩ := mem_iff_get.mp he
  have hord := applyOps_heapOrdered (h := freshHeap less) hv (freshHeap_heapOrdered less) ops
  rw [applyOps_lessFunc] at hord
  rw [← hej]
  exact root_min hv hord j hj

theorem top_minimal_witness :
    ∃ t : Nat, (applyOps (freshHeap natLess) [HeapOp.push 1]).Top = some t ∧
      ∀ e ∈ (applyOps (freshHeap natLess) [HeapOp.push 1]).heaps, natLess e t = false :=
  top_minimal natLess natLess_valid [HeapOp.push 1]
    (by simp [applyOps, applyOp, Heap.Push, Heap.up, up_eq, freshHeap])

/-- C4: `Top` on a heap whose storage is empty always fails — the Go
panic is modelled as `none`, so `Top` never returns a value there. -/
theorem top_empty_panics [Inhabited α] (h : Heap α) (he : h.Size = 0) :
    h.Top = none :=
  Top_of_empty h he

theorem top_empty_panics_witness :
    (freshHeap natLess).Size = 0 ∧ (freshHeap natLess).Top = none :=
  ⟨rfl, top_empty_panics (freshHeap natLess) rfl⟩

/-- C5: `Pop` on an empty heap, any number of times, is a silent no-op:
the heap (hence its storage) is unchanged and the size stays 0. -/
theorem pop_empty_noop [Inhabited α] (h : Heap α) (he : h.Size = 0) :
    ∀ k : Nat, h.popTimes k = h ∧ (h.popTimes k).Size = 0 := by
  intro k
  have h1 := popTimes_of_empty h he k
  refine ⟨h1, ?_⟩
  rw [h1]
  exact he

theorem pop_empty_noop_witness :
    (freshHeap natLess).popTimes 5 = freshHeap natLess ∧
      ((freshHeap natLess).popTimes 5).Size = 0 :=
  pop_empty_noop (freshHeap natLess) rfl 5

/-- C6: after any call sequence on a fresh heap, `Size` equals the number
of `Push` calls minus the number of `Pop` calls made while the storage
was non-empty. -/
theorem size_consistency [Inhabited α] (less : α → α → Bool) (ops : List (HeapOp α)) :
    (applyOps (freshHeap less) ops).Size
      = countPush ops - countEffectivePop (freshHeap less) ops := by
  have h1 := applyOps_size ops (freshHeap less)
  have h0 : (freshHeap less).Size = 0 := rfl
  omega

/-- C7: `NewAny` with an absent (`nil`) comparator returns the error and
no heap; with any present comparator it returns a heap holding exactly
that comparator (and empty storage). -/
theorem newAny_validation (α : Type) :
    NewAny (α := α) none
        = Except.error "less function is required to define heap ordering" ∧
      ∀ f : α → α → Bool, NewAny (some f) = Except.ok { heaps := [], lessFunc := f } :=
  ⟨rfl, fun _ => rfl⟩

/-- C8: in sift-down from index `i`, when the left child strictly
precedes `storage[i]` and the right child strictly precedes the left
child, the selection returns the right child: the right child is compared
against the updated best (the left child), not against index `i` — in
particular, when both children strictly precede the parent and the right
strictly precedes the left, the right child is chosen. -/
theorem down_right_child_selection [Inhabited α] (less : α → α → Bool) (l : List α)
    (i : Nat) (h1 : 2 * i + 1 < l.length) (h2 : 2 * i + 2 < l.length)
    (hl : less (get l (2 * i + 1)) (get l i) = true)
    (_hr : less (get l (2 * i + 2)) (get l i) = true)
    (hrl : less (get l (2 * i + 2)) (get l (2 * i + 1)) = true) :
    downSmallest less l i = 2 * i + 2 := by
  simp only [downSmallest]
  rw [if_pos (show 2 * i + 1 < l.length ∧ less (get l (2 * i + 1)) (get l i) = true from
    ⟨h1, hl⟩)]
  rw [if_pos (show 2 * i + 2 < l.length ∧
    less (get l (2 * i + 2)) (get l (2 * i + 1)) = true from ⟨h2, hrl⟩)]

theorem down_right_child_selection_witness :
    downSmallest natLess [5, 3, 1] 0 = 2 * 0 + 2 :=
  down_right_child_selection natLess [5, 3, 1] 0 (by decide) (by decide) (by decide)
    (by decide) (by decide)

/-- C9: sift-up from any index terminates: the walk moves to
`(index-1)/2`, which strictly decreases, so the fuelled variant with any
fuel exceeding the start index already reaches the fixed point computed
by `up`. -/
theorem up_terminates [Inhabited α] (less : α → α → Bool) :
    ∀ (fuel i : Nat) (l : List α), i < fuel →
      upFuel less fuel l i = some (up less l i) := by
  intro fuel
  induction fuel with
  | zero =>
    intro i l h
    omega
  | succ fuel ih =>
    intro i l h
    rw [up_eq]
    simp only [upFuel]
    split_ifs with h0 hlt
    · rfl
    · exact ih _ _ (by omega)
    · rfl

theorem up_terminates_witness :
    1 < 2 ∧ upFuel natLess 2 [2, 1] 1 = some (up natLess [2, 1] 1) :=
  ⟨by decide, up_terminates natLess 2 1 [2, 1] (by decide)⟩

/-- C10: on a non-empty heap, `Pop` removes exactly one occurrence of the
element `Top` returns — the stored multiset after `Pop` is the multiset
before minus one occurrence of the old root — and `Push x` makes the
stored multiset the old multiset plus `x`. -/
theorem pop_push_multiset [Inhabited α] [DecidableEq α] (h : Heap α)
    (hne : h.heaps ≠ []) :
    (∃ t : α, h.Top = some t ∧
      (↑h.Pop.heaps : Multiset α) = (↑h.heaps : Multiset α).erase t) ∧
    ∀ x : α, (↑(h.Push x).heaps : Multiset α) = x ::ₘ ↑h.heaps := by
  have hlen : h.heaps.length ≠ 0 := fun h0 => hne (List.length_eq_zero.mp h0)
  constructor
  · refine ⟨get h.heaps 0, Top_of_ne h hlen, ?_⟩
    have hm := multiset_Pop h hlen
    rw [← hm, Multiset.erase_cons_head]
  · exact multiset_Push h

theorem pop_push_multiset_witness :
    (∃ t : Nat, (⟨[1, 2], natLess⟩ : Heap Nat).Top = some t ∧
      (↑(⟨[1, 2], natLess⟩ : Heap Nat).Pop.heaps : Multiset Nat)
        = (↑(⟨[1, 2], natLess⟩ : Heap Nat).heaps : Multiset Nat).erase t) ∧
    ∀ x : Nat, (↑((⟨[1, 2], natLess⟩ : Heap Nat).Push x).heaps : Multiset Nat)
      = x ::ₘ ↑(⟨[1, 2], natLess⟩ : Heap Nat).heaps :=
  pop_push_multiset ⟨[1, 2], natLess⟩ (by decide)

end HeapGo
